import Mathlib

/-!
# Settings store of qbs (`src/lib/tools/settings.cpp`)

A shallow embedding of `qbs::Settings` and of the part of Qt it is written
against, followed by theorems about key translation, key enumeration,
reading, writing, removal, migration and the status check.

Qt itself (`QString`, `QStringList`, `QVariant`, `QSettings`) and the C++
standard library (`std::unique`) are not part of the repository; they are
modelled after their documented behaviour, each model saying what it covers.
-/

namespace Qbs

/-! ## Strings -/

/-- One character of a `QString`, given by its numeric value. Qt stores 16-bit
values (UTF-16 code units, a character above U+FFFF taking two of them); no
arithmetic is done on them here, so the bound is left out. -/
abbrev QChar := Nat

/-- A `QString`: the sequence of the numeric values of its characters. -/
abbrev QString := List Nat

/-- A `QStringList`. -/
abbrev QStringList := List QString

/-- The character `QLatin1Char(c)`. -/
def QLatin1Char (c : Char) : QChar := c.toNat

/-- The string `QLatin1String(s)`. -/
def QLatin1String (s : String) : QString := s.toList.map Char.toNat

/-- The separator of the external representation, `QLatin1Char('.')`. -/
def dot : QChar := QLatin1Char '.'

/-- The separator of the internal representation, `QLatin1Char('/')`. -/
def slash : QChar := QLatin1Char '/'

/-- The comparison `operator<` of `QString`: the first position where the two
strings differ decides, by the numeric value of the characters there; a proper
prefix is smaller. -/
def QString.less : QString → QString → Bool
  | [], [] => false
  | [], _ :: _ => true
  | _ :: _, [] => false
  | a :: as, b :: bs =>
    if a < b then true else if b < a then false else QString.less as bs

/-- The order "not greater than" that goes with `QString.less`. -/
def QString.le (a b : QString) : Prop := QString.less b a = false

instance QString.decLe : DecidableRel QString.le :=
  fun a b => inferInstanceAs (Decidable (QString.less b a = false))

/-- The call `QString::replace(before, after)` on characters: every occurrence
of `before` becomes `after`. -/
def QString.replace (s : QString) (before after : QChar) : QString :=
  s.map (fun c => if c = before then after else c)

/-- The single-argument `QString::arg` for a format whose only place marker is
`%1`: every `%1` is replaced by the argument. -/
def QString.arg : QString → QString → QString
  | [], _ => []
  | [c], _ => [c]
  | c :: d :: rest, a =>
    if c = QLatin1Char '%' ∧ d = QLatin1Char '1' then a ++ QString.arg rest a
    else c :: QString.arg (d :: rest) a

/-! ## String lists -/

/-- The call `QStringList::sort()`: ascending by `operator<`. The order is
total and equal strings are indistinguishable, so every sorting algorithm
returns this list. -/
def QStringList.sort (l : QStringList) : QStringList :=
  List.insertionSort QString.le l

/-- How `*result = std::move(*first)` acts on two list cells: a copy
assignment (no rvalue references), or the swap by which `QString` implements
its move assignment. -/
inductive MoveAssign where
  | copy
  | swap
  deriving DecidableEq, Repr

/-- The assignment `*result = std::move(*first)` inside `std::unique`, on the
cells `result` and `first` of the list. -/
def moveAssign (mv : MoveAssign) (arr : QStringList) (result first : Nat) : QStringList :=
  match mv with
  | MoveAssign.copy => arr.set result (arr.getD first [])
  | MoveAssign.swap => (arr.set result (arr.getD first [])).set first (arr.getD result [])

/-- The loop of `std::unique`,
`while (++first != last) if (!(*result == *first) && ++result != first) *result = std::move(*first);`
run for the given number of remaining iterations. Returns the list and the
final `result` position. -/
def uniqueLoop (mv : MoveAssign) : Nat → QStringList → Nat → Nat → QStringList × Nat
  | 0, arr, result, _ => (arr, result)
  | steps + 1, arr, result, first =>
    if arr.getD result [] = arr.getD first [] then
      uniqueLoop mv steps arr result (first + 1)
    else if result + 1 = first then
      uniqueLoop mv steps arr (result + 1) (first + 1)
    else
      uniqueLoop mv steps (moveAssign mv arr (result + 1) first) (result + 1) (first + 1)

/-- The call `std::unique(keys.begin(), keys.end())`: the list as the call
leaves it (same length; the cells past the new end keep whatever the loop left
there) and the position of the new end, which is the return value. -/
def std_unique (mv : MoveAssign) (keys : QStringList) : QStringList × Nat :=
  match keys with
  | [] => ([], 0)
  | _ :: _ =>
    let r := uniqueLoop mv (keys.length - 1) keys 0 1
    (r.1, r.2 + 1)

/-- The scan of `QStringList::removeDuplicates()`: an entry already seen is
dropped, any other is kept and remembered. -/
def removeDuplicatesAux (seen : List QString) : QStringList → QStringList
  | [] => []
  | x :: xs =>
    if x ∈ seen then removeDuplicatesAux seen xs
    else x :: removeDuplicatesAux (x :: seen) xs

/-- The call `QStringList::removeDuplicates()`: the first occurrence of every
entry is kept, in order. -/
def QStringList.removeDuplicates (l : QStringList) : QStringList :=
  removeDuplicatesAux [] l

/-! ## Key translation and key post-processing of `Settings` -/

/-- `Settings::internalRepresentation`. -/
def internalRepresentation (externalKey : QString) : QString :=
  let internalKey := externalKey
  internalKey.replace (QLatin1Char '.') (QLatin1Char '/')

/-- `Settings::externalRepresentation`. -/
def externalRepresentation (internalKey : QString) : QString :=
  let externalKey := internalKey
  externalKey.replace (QLatin1Char '/') (QLatin1Char '.')

/-- `Settings::fixupKeys`: sort, `std::unique` with its return value dropped,
`removeDuplicates`, then every entry is put in external form. -/
def fixupKeys (mv : MoveAssign) (keys : QStringList) : QStringList :=
  let keys := QStringList.sort keys
  let keys := (std_unique mv keys).1
  let keys := QStringList.removeDuplicates keys
  keys.map externalRepresentation

/-! ## Values -/

/-- A `QVariant`, as far as the store looks at it: invalid (default
constructed), a string, a boolean, an integer or a list of strings. -/
inductive QVariant where
  | invalid
  | string (s : QString)
  | bool (b : Bool)
  | int (n : Int)
  | stringList (l : QStringList)
  deriving DecidableEq, Repr

/-- The conversion `QVariant::toString()`: a string is itself, a boolean is
`true` or `false`, an integer its decimal form, a list of exactly one string
that string; everything else, the invalid variant included, is the empty
string. -/
def QVariant.toString : QVariant → QString
  | QVariant.invalid => []
  | QVariant.string s => s
  | QVariant.bool b => if b then QLatin1String "true" else QLatin1String "false"
  | QVariant.int n => QLatin1String (ToString.toString n)
  | QVariant.stringList [s] => s
  | QVariant.stringList _ => []

/-! ## The backend: `QSettings`

The model keeps what the documentation of `QSettings` promises and the store
relies on: keys are paths with `/` as separator; every key or group name
passed in is first normalised (leading, trailing and repeated slashes are
dropped); a handle has a stack of groups whose names are put in front of every
key; `allKeys()` lists the keys under the current group relative to it;
`remove(key)` removes the setting and everything below it, and everything in
the current group for a key that normalises to the empty one; with fallbacks
enabled, settings absent from the handle's own location are looked up in the
fallback locations; `status()` is the first error met. -/

/-- The status `QSettings::Status`. -/
inductive Status where
  | NoError
  | AccessError
  | FormatError
  deriving DecidableEq, Repr

/-- The scan of `QSettingsPrivate::normalizedKey`. `started` says that a
character has been put out already, `pending` that slashes were met since. A
slash is put out only between two characters that are not slashes. -/
def normalizedKeyAux (started pending : Bool) : QString → QString
  | [] => []
  | c :: cs =>
    if c = slash then normalizedKeyAux started started cs
    else if pending then slash :: c :: normalizedKeyAux true false cs
    else c :: normalizedKeyAux true false cs

/-- `QSettingsPrivate::normalizedKey`: the key without leading, trailing and
repeated slashes (`/foo//bar///` becomes `foo/bar`, `///` the empty key). -/
def normalizedKey (key : QString) : QString :=
  normalizedKeyAux false false key

/-- A `QSettings` handle. -/
structure QSettings where
  entries : List (QString × QVariant)
  fallbackEntries : List (QString × QVariant)
  fallbacksEnabled : Bool
  groupStack : List QString
  status : Status
  fileName : QString
  deriving DecidableEq, Repr

/-- The first value stored under a key, if any. -/
def entryValue (key : QString) : List (QString × QVariant) → Option QVariant
  | [] => none
  | e :: rest => if e.1 = key then some e.2 else entryValue key rest

/-- The part of a key that follows the given beginning, if the key starts with
it. -/
def stripGroup : QString → QString → Option QString
  | [], key => some key
  | _ :: _, [] => none
  | c :: cs, k :: ks => if c = k then stripGroup cs ks else none

/-- The text put in front of every key: each entered group with a non-empty
name, followed by a slash. -/
def QSettings.groupPath (q : QSettings) : QString :=
  (q.groupStack.map (fun name => if name = [] then [] else name ++ [slash])).flatten

/-- `QSettings::group()`: the group path without its final slash. -/
def QSettings.group (q : QSettings) : QString :=
  q.groupPath.dropLast

/-- `QSettings::beginGroup`: the normalised name is entered. -/
def QSettings.beginGroup (q : QSettings) (name : QString) : QSettings :=
  { q with groupStack := q.groupStack ++ [normalizedKey name] }

/-- `QSettings::endGroup`; without a matching `beginGroup` nothing happens. -/
def QSettings.endGroup (q : QSettings) : QSettings :=
  { q with groupStack := q.groupStack.dropLast }

/-- `QSettingsPrivate::actualKey`, the key a call addresses: the group path
followed by the normalised key. -/
def QSettings.actualKey (q : QSettings) (key : QString) : QString :=
  q.groupPath ++ normalizedKey key

/-- `QSettings::value`: the value stored in the handle's own location; if
there is none and fallbacks are enabled, the value of the fallback locations;
otherwise the default. -/
def QSettings.value (q : QSettings) (key : QString) (defaultValue : QVariant) : QVariant :=
  match entryValue (q.actualKey key) q.entries with
  | some v => v
  | none =>
    if q.fallbacksEnabled then
      match entryValue (q.actualKey key) q.fallbackEntries with
      | some v => v
      | none => defaultValue
    else defaultValue

/-- `QSettings::allKeys`: the keys under the current group, relative to it;
with fallbacks enabled the keys of the fallback locations as well. -/
def QSettings.allKeys (q : QSettings) : QStringList :=
  let own := q.entries.filterMap (fun e => stripGroup q.groupPath e.1)
  if q.fallbacksEnabled then
    own ++ q.fallbackEntries.filterMap (fun e => stripGroup q.groupPath e.1)
  else own

/-- `QSettings::setValue`: the value replaces whatever the handle's own
location held under the key. -/
def QSettings.setValue (q : QSettings) (key : QString) (value : QVariant) : QSettings :=
  let k := q.actualKey key
  { q with entries := (k, value) :: q.entries.filter (fun e => e.1 ≠ k) }

/-- `QSettings::remove`: the key is normalised; the setting and all settings
below it leave the handle's own location; for a key that normalises to the
empty one that is the current group, and everything when no group is
entered. -/
def QSettings.remove (q : QSettings) (key : QString) : QSettings :=
  let theKey := normalizedKey key
  let theKey := if theKey = [] then q.group else q.groupPath ++ theKey
  { q with entries :=
      if theKey = [] then []
      else
        q.entries.filter (fun e => ¬ (e.1 = theKey ∨ (stripGroup (theKey ++ [slash]) e.1).isSome)) }

/-- `QSettings::sync`, seen from one process: the stored settings stay, and the
outcome of the flush (the argument `flush`, `NoError` when it succeeds) becomes
the status unless an earlier error is still recorded. -/
def QSettings.sync (flush : Status) (q : QSettings) : QSettings :=
  { q with status := if q.status = Status.NoError then flush else q.status }

/-! ## The store: `Settings` -/

/-- The class `Error` thrown by the store (declared in `error.h`): an
exception carrying a message. -/
structure Error where
  message : QString
  deriving DecidableEq, Repr

/-- The name of the class of a thrown `Error`, which is what a `catch` clause
can tell failures apart by besides the message. -/
def Error.className (_e : Error) : String := "Error"

/-- `Tr::tr`: the text itself (no translation loaded). -/
def Tr.tr (text : String) : QString := QLatin1String text

/-- A `Settings` object: the backend handle `m_settings`. The handle is
private to the class, which leaves it with fallbacks disabled and with no
group entered between calls. -/
structure Settings where
  m_settings : QSettings
  fallbacksOff : m_settings.fallbacksEnabled = false
  noGroup : m_settings.groupStack = []

/-- `Settings::value`. -/
def Settings.value (s : Settings) (key : QString) (defaultValue : QVariant) : QVariant :=
  s.m_settings.value (internalRepresentation key) defaultValue

/-- `Settings::allKeys`. -/
def Settings.allKeys (mv : MoveAssign) (s : Settings) : QStringList :=
  let keys := s.m_settings.allKeys
  fixupKeys mv keys

/-- `Settings::allKeysWithPrefix`: the keys returned and the object after the
call (the member function is not `const`: it enters and leaves the group). -/
def Settings.allKeysWithPrefix (mv : MoveAssign) (s : Settings) (group : QString) :
    QStringList × Settings :=
  let m1 := s.m_settings.beginGroup (internalRepresentation group)
  let keys := m1.allKeys
  let m2 := m1.endGroup
  (fixupKeys mv keys,
    { m_settings := m2
      fallbacksOff := s.fallbacksOff
      noGroup := by
        show (s.m_settings.groupStack ++ [normalizedKey (internalRepresentation group)]).dropLast
          = []
        rw [s.noGroup]; rfl })

/-- `Settings::checkStatus`: what the call throws, if anything, and the object
after the call. `flush` is the outcome of the flush `sync()` performs. -/
def Settings.checkStatus (flush : Status) (s : Settings) : Option Error × Settings :=
  let m := s.m_settings.sync flush
  let s1 : Settings := { m_settings := m, fallbacksOff := s.fallbacksOff, noGroup := s.noGroup }
  match m.status with
  | Status.NoError => (none, s1)
  | Status.AccessError =>
    (some (Error.mk ((Tr.tr "%1 is not accessible.").arg m.fileName)), s1)
  | Status.FormatError =>
    (some (Error.mk ((Tr.tr "Format error in %1.").arg m.fileName)), s1)

/-- `Settings::setValue`: what the call throws, if anything (`none` when it
returns normally), and the object after the call. -/
def Settings.setValue (flush : Status) (s : Settings) (key : QString) (value : QVariant) :
    Option Error × Settings :=
  let s1 : Settings :=
    { m_settings := s.m_settings.setValue (internalRepresentation key) value
      fallbacksOff := s.fallbacksOff
      noGroup := s.noGroup }
  Settings.checkStatus flush s1

/-- `Settings::remove`: what the call throws, if anything (`none` when it
returns normally), and the object after the call. -/
def Settings.remove (flush : Status) (s : Settings) (key : QString) : Option Error × Settings :=
  let s1 : Settings :=
    { m_settings := s.m_settings.remove (internalRepresentation key)
      fallbacksOff := s.fallbacksOff
      noGroup := s.noGroup }
  Settings.checkStatus flush s1

/-- `Settings::defaultProfile`. The argument `defaultValue` is the default
argument of `Settings::value`, which the declaration in `settings.h` gives. -/
def Settings.defaultProfile (defaultValue : QVariant) (s : Settings) : QString :=
  (s.value (QLatin1String "profile") defaultValue).toString

/-- A store object on given settings, with the given backing file and status:
the state of a `Settings` object whose handle holds these settings. -/
def Settings.ofEntries (entries : List (QString × QVariant)) (fileName : QString)
    (status : Status) : Settings :=
  { m_settings :=
      { entries := entries, fallbackEntries := [], fallbacksEnabled := false, groupStack := [],
        status := status, fileName := fileName }
    fallbacksOff := rfl
    noGroup := rfl }

/-! ## Well-formed keys -/

/-- The segments joined by the separator. -/
def joinWith (sep : QChar) : List QString → QString
  | [] => []
  | [s] => s
  | s :: t :: rest => s ++ sep :: joinWith sep (t :: rest)

/-- A well-formed key for the separator: one or more non-empty segments joined
by it, no segment containing `.` or `/`. With `dot` these are the well-formed
dotted keys, with `slash` the well-formed slash keys. -/
def WellFormedKey (sep : QChar) (k : QString) : Prop :=
  ∃ segs : List QString,
    segs ≠ [] ∧ (∀ s ∈ segs, s ≠ [] ∧ dot ∉ s ∧ slash ∉ s) ∧ k = joinWith sep segs

/-! ## Closed forms the code is compared with -/

/-- The list without the repetitions inside each run of equal neighbours: what
`std::unique` puts in front of its new end. -/
def adjacentUnique (l : QStringList) : QStringList :=
  l.foldl (fun acc x => if acc.getLast? = some x then acc else acc ++ [x]) []

/-- The distinct entries of a list in ascending order: what `fixupKeys` holds
just before it converts the entries to external form. -/
def sortedKeys (keys : QStringList) : QStringList :=
  adjacentUnique (QStringList.sort keys)

/-- The outcome table of the status check: nothing is thrown for no-error, an
`Error` with the message `<path> is not accessible.` for an access error, an
`Error` with the message `Format error in <path>.` for a format error. -/
def thrownFor (status : Status) (fileName : QString) : Option Error :=
  match status with
  | Status.NoError => none
  | Status.AccessError => some (Error.mk (fileName ++ QLatin1String " is not accessible."))
  | Status.FormatError =>
    some (Error.mk (QLatin1String "Format error in " ++ fileName ++ QLatin1String "."))

/-! ## Code points

The order of `QString` compares the 16-bit character values. The order by
code points reads a high surrogate followed by a low surrogate as the one
character above U+FFFF the pair stands for. -/

/-- `QChar::isHighSurrogate`: a value from D800 to DBFF. -/
def isHighSurrogate (c : QChar) : Bool := decide (55296 ≤ c ∧ c ≤ 56319)

/-- `QChar::isLowSurrogate`: a value from DC00 to DFFF. -/
def isLowSurrogate (c : QChar) : Bool := decide (56320 ≤ c ∧ c ≤ 57343)

/-- `QChar::surrogateToUcs4`: the code point a surrogate pair stands for. -/
def surrogateToUcs4 (high low : QChar) : Nat :=
  (high - 55296) * 1024 + (low - 56320) + 65536

/-- The scan of `QString::toUcs4`; `pending` is a high surrogate read and not
yet put out. -/
def codePointsAux (pending : Option QChar) : QString → List Nat
  | [] =>
    match pending with
    | none => []
    | some h => [h]
  | c :: cs =>
    match pending with
    | some h =>
      if isLowSurrogate c then surrogateToUcs4 h c :: codePointsAux none cs
      else if isHighSurrogate c then h :: codePointsAux (some c) cs
      else h :: c :: codePointsAux none cs
    | none =>
      if isHighSurrogate c then codePointsAux (some c) cs
      else c :: codePointsAux none cs

/-- `QString::toUcs4`: the code points of a string. -/
def codePoints (s : QString) : List Nat :=
  codePointsAux none s

/-- The order by code points: the first position where the code points of the
two strings differ decides. -/
def codePointLess (a b : QString) : Bool :=
  QString.less (codePoints a) (codePoints b)

/-- A string without surrogates: every character value is below D800 or above
DFFF. -/
def NoSurrogate (s : QString) : Prop :=
  ∀ c ∈ s, c < 55296 ∨ 57343 < c

/-! ## The order of `QString` -/

theorem less_irrefl (a : QString) : QString.less a a = false := by
  induction a with
  | nil => rfl
  | cons x xs ih => simp [QString.less, ih]

theorem less_trans : ∀ (a b c : QString),
    QString.less a b = true → QString.less b c = true → QString.less a c = true
  | [], [], _, h, _ => by simp [QString.less] at h
  | [], _ :: _, [], _, h => by simp [QString.less] at h
  | [], _ :: _, _ :: _, _, _ => by simp [QString.less]
  | _ :: _, [], _, h, _ => by simp [QString.less] at h
  | _ :: _, _ :: _, [], _, h => by simp [QString.less] at h
  | x :: xs, y :: ys, z :: zs, h1, h2 => by
    simp only [QString.less] at h1 h2 ⊢
    split_ifs at h1 h2 ⊢ <;> first | rfl | omega | exact less_trans xs ys zs h1 h2

theorem less_asymm : ∀ (a b : QString), QString.less a b = true → QString.less b a = false
  | [], [], h => by simp [QString.less] at h
  | [], _ :: _, _ => by simp [QString.less]
  | _ :: _, [], h => by simp [QString.less] at h
  | x :: xs, y :: ys, h => by
    simp only [QString.less] at h ⊢
    split_ifs at h ⊢ <;> first | rfl | omega | exact less_asymm xs ys h

theorem less_connex : ∀ (a b : QString),
    QString.less a b = false → QString.less b a = false → a = b
  | [], [], _, _ => rfl
  | [], _ :: _, h, _ => by simp [QString.less] at h
  | _ :: _, [], _, h => by simp [QString.less] at h
  | x :: xs, y :: ys, h1, h2 => by
    simp only [QString.less] at h1 h2
    split_ifs at h1 h2
    have hxy : x = y := by omega
    rw [hxy, less_connex xs ys h1 h2]

theorem le_total (a b : QString) : QString.le a b ∨ QString.le b a := by
  unfold QString.le
  cases h : QString.less b a with
  | false => exact Or.inl rfl
  | true => exact Or.inr (less_asymm b a h)

theorem le_trans {a b c : QString} (h1 : QString.le a b) (h2 : QString.le b c) :
    QString.le a c := by
  unfold QString.le at *
  cases h : QString.less c a with
  | false => rfl
  | true =>
    cases hab : QString.less a b with
    | true => rw [less_trans c a b h hab] at h2; exact h2
    | false =>
      have e : a = b := less_connex a b hab h1
      rw [e] at h; rw [h] at h2; exact h2

theorem le_antisymm {a b : QString} (h1 : QString.le a b) (h2 : QString.le b a) : a = b :=
  less_connex a b h2 h1

theorem less_of_le_of_ne {a b : QString} (h : QString.le a b) (hne : a ≠ b) :
    QString.less a b = true := by
  cases hab : QString.less a b with
  | true => rfl
  | false => exact absurd (less_connex a b hab h) hne

theorem sort_sorted (l : QStringList) : List.Pairwise QString.le (QStringList.sort l) :=
  @List.sorted_insertionSort QString QString.le _ ⟨le_total⟩ ⟨fun _ _ _ => le_trans⟩ l

/-- Whatever algorithm `sort()` runs, its result is this list: an ascending
rearrangement of the input is unique. -/
theorem sort_unique (l r : QStringList) (hp : List.Perm r l)
    (hs : List.Pairwise QString.le r) : r = QStringList.sort l :=
  @List.eq_of_perm_of_sorted QString QString.le ⟨fun _ _ => le_antisymm⟩ r (QStringList.sort l)
    (hp.trans (List.perm_insertionSort QString.le l).symm) hs (sort_sorted l)

theorem mem_sort (l : QStringList) (x : QString) : x ∈ QStringList.sort l ↔ x ∈ l :=
  (List.perm_insertionSort QString.le l).mem_iff

/-! ## `std::unique` and `removeDuplicates` -/

theorem adjacentUnique_concat (l : QStringList) (x : QString) :
    adjacentUnique (l ++ [x]) =
      if (adjacentUnique l).getLast? = some x then adjacentUnique l
      else adjacentUnique l ++ [x] := by
  simp [adjacentUnique, List.foldl_append]

theorem adjacentUnique_getLast (l : QStringList) : (adjacentUnique l).getLast? = l.getLast? := by
  induction l using List.reverseRecOn with
  | nil => rfl
  | append_singleton l x ih =>
    rw [adjacentUnique_concat]
    split_ifs with h
    · rw [h, List.getLast?_concat]
    · rw [List.getLast?_concat, List.getLast?_concat]

theorem mem_adjacentUnique (l : QStringList) (x : QString) : x ∈ adjacentUnique l ↔ x ∈ l := by
  induction l using List.reverseRecOn with
  | nil => simp [adjacentUnique]
  | append_singleton l y ih =>
    rw [adjacentUnique_concat]
    split_ifs with h
    · have hy : y ∈ adjacentUnique l := List.mem_of_mem_getLast? h
      rw [List.mem_append, List.mem_singleton, ← ih]
      constructor
      · exact Or.inl
      · rintro (h1 | h1)
        · exact h1
        · rw [h1]; exact hy
    · simp [ih]

theorem moveAssign_length (mv : MoveAssign) (arr : QStringList) (i j : Nat) :
    (moveAssign mv arr i j).length = arr.length := by
  cases mv <;> simp [moveAssign]

theorem moveAssign_mem (mv : MoveAssign) (arr : QStringList) (i j : Nat)
    (hi : i < arr.length) (hj : j < arr.length) :
    ∀ x ∈ moveAssign mv arr i j, x ∈ arr := by
  have hgi : arr.getD i [] ∈ arr := by
    rw [List.getD_eq_getElem?_getD, List.getElem?_eq_getElem hi]
    exact List.getElem_mem hi
  have hgj : arr.getD j [] ∈ arr := by
    rw [List.getD_eq_getElem?_getD, List.getElem?_eq_getElem hj]
    exact List.getElem_mem hj
  intro x hx
  cases mv with
  | copy =>
    rcases List.mem_or_eq_of_mem_set hx with h | h
    · exact h
    · rw [h]; exact hgj
  | swap =>
    rcases List.mem_or_eq_of_mem_set hx with h | h
    · rcases List.mem_or_eq_of_mem_set h with h | h
      · exact h
      · rw [h]; exact hgj
    · rw [h]; exact hgi

theorem take_succ_set (arr : QStringList) : ∀ (i : Nat) (x : QString), i < arr.length →
    (arr.set i x).take (i + 1) = arr.take i ++ [x] := by
  induction arr with
  | nil => intro i x h; simp at h
  | cons a as ih =>
    intro i x h
    cases i with
    | zero => simp
    | succ j =>
      simp only [List.set_cons_succ, List.take_succ_cons, List.cons_append, List.cons.injEq,
        true_and]
      exact ih j x (by simpa using h)

theorem take_set_of_le (arr : QStringList) (m n : Nat) (y : QString) (h : m ≤ n) :
    (arr.set n y).take m = arr.take m := by
  rw [List.set_take, List.set_eq_of_length_le]
  rw [List.length_take]; omega

theorem moveAssign_take (mv : MoveAssign) (arr : QStringList) (i j : Nat)
    (hij : i < j) (hj : j < arr.length) :
    (moveAssign mv arr i j).take (i + 1) = arr.take i ++ [arr.getD j []] := by
  have hi : i < arr.length := by omega
  cases mv with
  | copy => exact take_succ_set arr i _ hi
  | swap =>
    simp only [moveAssign]
    rw [take_set_of_le _ _ _ _ (by omega), take_succ_set _ _ _ hi]

theorem moveAssign_drop (mv : MoveAssign) (arr : QStringList) (i j : Nat) (hij : i < j) :
    (moveAssign mv arr i j).drop (j + 1) = arr.drop (j + 1) := by
  cases mv with
  | copy => exact List.drop_set_of_lt _ arr (by omega)
  | swap =>
    simp only [moveAssign]
    rw [List.drop_set_of_lt _ (arr.set i _) (Nat.lt_succ_self j),
      List.drop_set_of_lt _ arr (by omega)]

/-- The invariant of the loop of `std::unique`: the cells up to `result` hold
the input read so far without repeated neighbours, the cells from `first` on
are untouched, and every cell holds an entry of the input. -/
theorem uniqueLoop_spec (mv : MoveAssign) (l : QStringList) :
    ∀ (steps : Nat) (arr : QStringList) (result first : Nat),
      arr.length = l.length → result < first → first + steps = l.length →
      arr.drop first = l.drop first →
      arr.take (result + 1) = adjacentUnique (l.take first) →
      (∀ x ∈ arr, x ∈ l) →
      (uniqueLoop mv steps arr result first).1.length = l.length ∧
      (uniqueLoop mv steps arr result first).1.take ((uniqueLoop mv steps arr result first).2 + 1)
        = adjacentUnique l ∧
      (∀ x ∈ (uniqueLoop mv steps arr result first).1, x ∈ l) := by
  intro steps
  induction steps with
  | zero =>
    intro arr result first hlen _ hsteps _ htake hmem
    have hf : first = l.length := by omega
    simp only [uniqueLoop]
    refine ⟨hlen, ?_, hmem⟩
    rw [htake, hf, List.take_length]
  | succ n ih =>
    intro arr result first hlen hrf hsteps hdrop htake hmem
    have hfl : first < l.length := by omega
    have hfa : first < arr.length := by omega
    have hra : result < arr.length := by omega
    have hxa : arr[first]? = l[first]? := by
      have h := congrArg (fun t => t[0]?) hdrop
      simpa [List.getElem?_drop] using h
    have hxl : l[first]? = some (arr.getD first []) := by
      rw [← hxa, List.getD_eq_getElem?_getD, List.getElem?_eq_getElem hfa]; rfl
    have htk : l.take (first + 1) = l.take first ++ [arr.getD first []] := by
      rw [List.take_succ, hxl]; rfl
    have hlast : (adjacentUnique (l.take first)).getLast? = some (arr.getD result []) := by
      rw [← htake, List.getLast?_eq_getElem?, List.length_take, List.getElem?_take,
        List.getD_eq_getElem?_getD, List.getElem?_eq_getElem hra]
      have h1 : min (result + 1) arr.length - 1 = result := by omega
      rw [h1, if_pos (Nat.lt_succ_self result), List.getElem?_eq_getElem hra]; rfl
    have hdrop1 : arr.drop (first + 1) = l.drop (first + 1) := by
      have h := congrArg (List.drop 1) hdrop
      simpa [List.drop_drop, Nat.add_comm] using h
    unfold uniqueLoop
    split_ifs with h1 h2
    · apply ih arr result (first + 1) hlen (by omega) (by omega) hdrop1 _ hmem
      rw [htk, adjacentUnique_concat, hlast, h1, if_pos rfl, htake]
    · apply ih arr (result + 1) (first + 1) hlen (by omega) (by omega) hdrop1 _ hmem
      have hne : ¬ some (arr.getD result []) = some (arr.getD first []) := by
        intro h; exact h1 (Option.some.inj h)
      rw [htk, adjacentUnique_concat, hlast, if_neg hne, ← htake, List.take_succ, h2, hxa, hxl]
      rfl
    · have hlt : result + 1 < first := by omega
      apply ih (moveAssign mv arr (result + 1) first) (result + 1) (first + 1)
        ((moveAssign_length mv arr _ _).trans hlen) (by omega) (by omega)
      · rw [moveAssign_drop mv arr _ _ hlt, hdrop1]
      · have hne : ¬ some (arr.getD result []) = some (arr.getD first []) := by
          intro h; exact h1 (Option.some.inj h)
        rw [htk, adjacentUnique_concat, hlast, if_neg hne, ← htake,
          moveAssign_take mv arr _ _ hlt hfa]
      · intro x hx
        exact hmem x (moveAssign_mem mv arr _ _ (by omega) hfa x hx)

/-- What `std::unique` leaves: a list of the same length whose cells before
the new end are the input without repeated neighbours, and whose every cell
holds an entry of the input. -/
theorem std_unique_spec (mv : MoveAssign) (l : QStringList) :
    (std_unique mv l).1.length = l.length ∧
    (std_unique mv l).1.take (std_unique mv l).2 = adjacentUnique l ∧
    (∀ x ∈ (std_unique mv l).1, x ∈ l) := by
  cases l with
  | nil => simp [std_unique, adjacentUnique]
  | cons a as =>
    simp only [std_unique]
    apply uniqueLoop_spec mv (a :: as) _ (a :: as) 0 1 rfl (by omega)
    · simp; omega
    · rfl
    · simp [adjacentUnique]
    · intro x hx; exact hx

theorem removeDuplicatesAux_absorb (seen : List QString) (t : QStringList)
    (h : ∀ x ∈ t, x ∈ seen) : removeDuplicatesAux seen t = [] := by
  induction t with
  | nil => rfl
  | cons x xs ih =>
    have hx : x ∈ seen := h x (List.mem_cons_self x xs)
    simp only [removeDuplicatesAux, if_pos hx]
    exact ih (fun y hy => h y (List.mem_cons_of_mem x hy))

theorem removeDuplicatesAux_keep (p t : QStringList) :
    ∀ (seen : List QString), p.Nodup → (∀ x ∈ p, x ∉ seen) → (∀ x ∈ t, x ∈ p ∨ x ∈ seen) →
      removeDuplicatesAux seen (p ++ t) = p := by
  induction p with
  | nil =>
    intro seen _ _ ht
    apply removeDuplicatesAux_absorb
    intro x hx
    rcases ht x hx with h | h
    · simp at h
    · exact h
  | cons a as ih =>
    intro seen hnd hdisj ht
    have ha : a ∉ seen := hdisj a (List.mem_cons_self a as)
    rw [List.nodup_cons] at hnd
    simp only [List.cons_append, removeDuplicatesAux, if_neg ha, List.cons.injEq, true_and]
    apply ih (a :: seen) hnd.2
    · intro x hx hmem
      rcases List.mem_cons.mp hmem with h | h
      · rw [h] at hx; exact hnd.1 hx
      · exact hdisj x (List.mem_cons_of_mem a hx) h
    · intro x hx
      rcases ht x hx with h | h
      · rcases List.mem_cons.mp h with h1 | h1
        · exact Or.inr (by rw [h1]; exact List.mem_cons_self a seen)
        · exact Or.inl h1
      · exact Or.inr (List.mem_cons_of_mem a h)

/-- In an ascending list every entry is at most the last one. -/
theorem le_getLast_of_sorted (l : QStringList) (z : QString)
    (hs : List.Pairwise QString.le (l ++ [z])) : ∀ a ∈ l ++ [z], QString.le a z := by
  intro a ha
  rw [List.pairwise_append] at hs
  rcases List.mem_append.mp ha with h | h
  · exact hs.2.2 a h z (List.mem_singleton_self z)
  · rw [List.mem_singleton.mp h]; exact less_irrefl z

theorem adjacentUnique_strict (l : QStringList) (hs : List.Pairwise QString.le l) :
    List.Pairwise (fun a b => QString.less a b = true) (adjacentUnique l) := by
  induction l using List.reverseRecOn with
  | nil => simp [adjacentUnique]
  | append_singleton l x ih =>
    have hsl : List.Pairwise QString.le l := (List.pairwise_append.mp hs).1
    have hlx : ∀ a ∈ l, QString.le a x := fun a ha =>
      (List.pairwise_append.mp hs).2.2 a ha x (List.mem_singleton_self x)
    rw [adjacentUnique_concat]
    split_ifs with h
    · exact ih hsl
    · rw [List.pairwise_append]
      refine ⟨ih hsl, List.pairwise_singleton _ _, ?_⟩
      intro a ha b hb
      rw [List.mem_singleton.mp hb]
      have hal : a ∈ l := (mem_adjacentUnique l a).mp ha
      apply less_of_le_of_ne (hlx a hal)
      intro hax
      apply h
      rw [adjacentUnique_getLast]
      rcases List.eq_nil_or_concat l with hnil | ⟨l1, z, hz⟩
      · rw [hnil] at hal; simp at hal
      · rw [List.concat_eq_append] at hz
        rw [hz] at hsl hal ⊢
        have haz : QString.le a z := le_getLast_of_sorted l1 z hsl a hal
        have hzx : QString.le z x := hlx z (by rw [hz]; simp)
        rw [hax] at haz
        rw [List.getLast?_concat, le_antisymm hzx haz]

theorem strict_nodup (l : QStringList)
    (h : List.Pairwise (fun a b => QString.less a b = true) l) : l.Nodup := by
  apply List.Pairwise.imp _ h
  intro a b hab hne
  rw [hne, less_irrefl] at hab
  exact Bool.noConfusion hab

theorem sortedKeys_strict (keys : QStringList) :
    List.Pairwise (fun a b => QString.less a b = true) (sortedKeys keys) :=
  adjacentUnique_strict _ (sort_sorted keys)

theorem mem_sortedKeys (keys : QStringList) (x : QString) : x ∈ sortedKeys keys ↔ x ∈ keys := by
  unfold sortedKeys
  rw [mem_adjacentUnique, mem_sort]

/-- Dropping the return value of `std::unique` is harmless: the cells past the
new end repeat entries in front of it, and `removeDuplicates` removes them. -/
theorem fixupKeys_eq (mv : MoveAssign) (keys : QStringList) :
    fixupKeys mv keys = (sortedKeys keys).map externalRepresentation := by
  unfold fixupKeys sortedKeys
  dsimp only
  congr 1
  obtain ⟨_, htake, hmem⟩ := std_unique_spec mv (QStringList.sort keys)
  have hsplit := List.take_append_drop (std_unique mv (QStringList.sort keys)).2
    (std_unique mv (QStringList.sort keys)).1
  rw [htake] at hsplit
  unfold QStringList.removeDuplicates
  rw [← hsplit]
  apply removeDuplicatesAux_keep
  · exact strict_nodup _ (adjacentUnique_strict _ (sort_sorted keys))
  · intro x _ hx; simp at hx
  · intro x hx
    left
    rw [mem_adjacentUnique]
    exact hmem x (List.mem_of_mem_drop hx)

/-! ## Key translation -/

theorem dot_val : QLatin1Char '.' = (46 : Nat) := rfl

theorem slash_val : QLatin1Char '/' = (47 : Nat) := rfl

theorem external_internal_of_no_slash (k : QString) (h : slash ∉ k) :
    externalRepresentation (internalRepresentation k) = k := by
  induction k with
  | nil => rfl
  | cons c cs ih =>
    have hc : c ≠ 47 := fun e => h (by rw [e]; exact List.mem_cons_self _ _)
    have hcs : slash ∉ cs := fun e => h (List.mem_cons_of_mem _ e)
    have ih1 := ih hcs
    simp only [externalRepresentation, internalRepresentation, QString.replace, List.map_cons,
      List.map_map, dot_val, slash_val] at ih1 ⊢
    rw [ih1]
    congr 1
    unfold QChar at *
    split_ifs <;> omega

theorem internal_external_of_no_dot (k : QString) (h : dot ∉ k) :
    internalRepresentation (externalRepresentation k) = k := by
  induction k with
  | nil => rfl
  | cons c cs ih =>
    have hc : c ≠ 46 := fun e => h (by rw [e]; exact List.mem_cons_self _ _)
    have hcs : dot ∉ cs := fun e => h (List.mem_cons_of_mem _ e)
    have ih1 := ih hcs
    simp only [externalRepresentation, internalRepresentation, QString.replace, List.map_cons,
      List.map_map, dot_val, slash_val] at ih1 ⊢
    rw [ih1]
    congr 1
    unfold QChar at *
    split_ifs <;> omega

theorem mem_joinWith (sep : QChar) (c : QChar) :
    ∀ (segs : List QString), c ∈ joinWith sep segs → c = sep ∨ ∃ s ∈ segs, c ∈ s
  | [], h => by simp [joinWith] at h
  | [s], h => Or.inr ⟨s, List.mem_singleton_self s, h⟩
  | s :: t :: rest, h => by
    simp only [joinWith, List.mem_append, List.mem_cons] at h
    rcases h with h | h | h
    · exact Or.inr ⟨s, List.mem_cons_self _ _, h⟩
    · exact Or.inl h
    · rcases mem_joinWith sep c (t :: rest) h with h1 | ⟨u, hu, hc⟩
      · exact Or.inl h1
      · exact Or.inr ⟨u, List.mem_cons_of_mem _ hu, hc⟩

theorem no_slash_of_wellFormed_dotted (k : QString) (h : WellFormedKey dot k) : slash ∉ k := by
  obtain ⟨segs, _, hsegs, hk⟩ := h
  intro hmem
  rw [hk] at hmem
  rcases mem_joinWith dot slash segs hmem with h1 | ⟨s, hs, hc⟩
  · exact absurd h1 (by decide)
  · exact (hsegs s hs).2.2 hc

theorem no_dot_of_wellFormed_slash (k : QString) (h : WellFormedKey slash k) : dot ∉ k := by
  obtain ⟨segs, _, hsegs, hk⟩ := h
  intro hmem
  rw [hk] at hmem
  rcases mem_joinWith slash dot segs hmem with h1 | ⟨s, hs, hc⟩
  · exact absurd h1 (by decide)
  · exact (hsegs s hs).2.1 hc

theorem external_less (a b : QString) : dot ∉ a → dot ∉ b → QString.less a b = true →
    QString.less (externalRepresentation a) (externalRepresentation b) = true := by
  induction a generalizing b with
  | nil =>
    intro _ _ h
    cases b with
    | nil => simp [QString.less] at h
    | cons y ys => simp [externalRepresentation, QString.replace, QString.less]
  | cons x xs ih =>
    intro ha hb h
    cases b with
    | nil => simp [QString.less] at h
    | cons y ys =>
      have hx : x ≠ 46 := fun e => ha (by rw [e]; exact List.mem_cons_self _ _)
      have hy : y ≠ 46 := fun e => hb (by rw [e]; exact List.mem_cons_self _ _)
      have hxs : dot ∉ xs := fun e => ha (List.mem_cons_of_mem _ e)
      have hys : dot ∉ ys := fun e => hb (List.mem_cons_of_mem _ e)
      have ih1 := ih ys hxs hys
      simp only [externalRepresentation, QString.replace, List.map_cons, QString.less,
        dot_val, slash_val] at ih1 h ⊢
      unfold QChar at *
      split_ifs at h ⊢ <;> first | rfl | omega | exact ih1 h

/-! ## Claims on key translation and key enumeration -/

/-- C1, counterexample: the backend keys `a.b` and `a/b` are two distinct
keys, and `fixupKeys` returns the entry `a.b` twice for them; for the backend
keys `a.c` and `a/b` the internal representations of the returned entries,
`a/c` then `a/b`, are not in ascending order. -/
theorem fixupKeys_dotted_keys_collide :
    fixupKeys MoveAssign.copy [QLatin1String "a.b", QLatin1String "a/b"]
      = [QLatin1String "a.b", QLatin1String "a.b"] ∧
    ¬ (fixupKeys MoveAssign.copy [QLatin1String "a.b", QLatin1String "a/b"]).Nodup ∧
    (fixupKeys MoveAssign.copy [QLatin1String "a.c", QLatin1String "a/b"]).map
        internalRepresentation = [QLatin1String "a/c", QLatin1String "a/b"] ∧
    QString.less (QLatin1String "a/b") (QLatin1String "a/c") = true := by
  decide

/-- C1, amended: for every list of keys the backend reports, in any order and
with duplicates, in which no key contains `.`, the list `fixupKeys` returns
contains no entry twice, and the internal representations of its entries are
strictly ascending in the order of `QString`. -/
theorem fixupKeys_nodup_ascending (mv : MoveAssign) (keys : QStringList)
    (h : ∀ k ∈ keys, dot ∉ k) :
    (fixupKeys mv keys).Nodup ∧
    List.Pairwise (fun a b => QString.less a b = true)
      ((fixupKeys mv keys).map internalRepresentation) := by
  have hmap : (fixupKeys mv keys).map internalRepresentation = sortedKeys keys := by
    rw [fixupKeys_eq, List.map_map]
    conv_rhs => rw [← List.map_id (sortedKeys keys)]
    apply List.map_congr_left
    intro k hk
    exact internal_external_of_no_dot k (h k ((mem_sortedKeys keys k).mp hk))
  have hstrict := sortedKeys_strict keys
  constructor
  · apply List.Nodup.of_map internalRepresentation
    rw [hmap]
    exact strict_nodup _ hstrict
  · rw [hmap]; exact hstrict

/-- C1, witness: the keys `b`, `a/c`, `b`, `a`, none with a `.`. -/
theorem fixupKeys_nodup_ascending_witness :
    (∀ k ∈ [QLatin1String "b", QLatin1String "a/c", QLatin1String "b", QLatin1String "a"],
      dot ∉ k) ∧
    (fixupKeys MoveAssign.swap
      [QLatin1String "b", QLatin1String "a/c", QLatin1String "b", QLatin1String "a"]).Nodup ∧
    List.Pairwise (fun a b => QString.less a b = true)
      ((fixupKeys MoveAssign.swap
        [QLatin1String "b", QLatin1String "a/c", QLatin1String "b", QLatin1String "a"]).map
        internalRepresentation) :=
  ⟨by decide, fixupKeys_nodup_ascending MoveAssign.swap _ (by decide)⟩

/-- C6: for every well-formed dotted key `k`,
`externalRepresentation (internalRepresentation k) = k`. -/
theorem external_internal_roundtrip (k : QString) (h : WellFormedKey dot k) :
    externalRepresentation (internalRepresentation k) = k :=
  external_internal_of_no_slash k (no_slash_of_wellFormed_dotted k h)

/-- C6, witness: the key `profiles.qt.baseProfile`. -/
theorem external_internal_roundtrip_witness :
    WellFormedKey dot (QLatin1String "profiles.qt.baseProfile") ∧
    externalRepresentation (internalRepresentation (QLatin1String "profiles.qt.baseProfile"))
      = QLatin1String "profiles.qt.baseProfile" :=
  have hw : WellFormedKey dot (QLatin1String "profiles.qt.baseProfile") :=
    ⟨[QLatin1String "profiles", QLatin1String "qt", QLatin1String "baseProfile"],
      by decide, by decide, by decide⟩
  ⟨hw, external_internal_roundtrip _ hw⟩

/-- C7: for every well-formed slash key `k`,
`internalRepresentation (externalRepresentation k) = k`. -/
theorem internal_external_roundtrip (k : QString) (h : WellFormedKey slash k) :
    internalRepresentation (externalRepresentation k) = k :=
  internal_external_of_no_dot k (no_dot_of_wellFormed_slash k h)

/-- C7, witness: the key `profiles/qt/baseProfile`. -/
theorem internal_external_roundtrip_witness :
    WellFormedKey slash (QLatin1String "profiles/qt/baseProfile") ∧
    internalRepresentation (externalRepresentation (QLatin1String "profiles/qt/baseProfile"))
      = QLatin1String "profiles/qt/baseProfile" :=
  have hw : WellFormedKey slash (QLatin1String "profiles/qt/baseProfile") :=
    ⟨[QLatin1String "profiles", QLatin1String "qt", QLatin1String "baseProfile"],
      by decide, by decide, by decide⟩
  ⟨hw, internal_external_roundtrip _ hw⟩

/-! ## The backend handle -/

theorem entryValue_filter_ne (k : QString) (l : List (QString × QVariant)) (p : QString × QVariant → Bool)
    (hp : ∀ e ∈ l, e.1 = k → p e = false) : entryValue k (l.filter p) = none := by
  induction l with
  | nil => rfl
  | cons e rest ih =>
    have ih1 := ih (fun e1 he1 => hp e1 (List.mem_cons_of_mem _ he1))
    by_cases hpe : p e = true
    · rw [List.filter_cons_of_pos hpe]
      have hne : e.1 ≠ k := by
        intro heq
        rw [hp e (List.mem_cons_self _ _) heq] at hpe
        exact Bool.noConfusion hpe
      simp only [entryValue, if_neg hne]
      exact ih1
    · rw [List.filter_cons_of_neg hpe]
      exact ih1

theorem stripGroup_eq_some (p k r : QString) : stripGroup p k = some r ↔ k = p ++ r := by
  induction p generalizing k with
  | nil =>
    simp only [stripGroup, Option.some.injEq, List.nil_append]
  | cons c cs ih =>
    cases k with
    | nil => simp [stripGroup]
    | cons d ds =>
      simp only [stripGroup, List.cons_append, List.cons.injEq]
      split_ifs with h
      · rw [ih]
        constructor
        · intro h1; exact ⟨h.symm, h1⟩
        · intro h1; exact h1.2
      · constructor
        · intro h1; exact h1.elim
        · intro h1; exact absurd h1.1.symm h

theorem stripGroup_isSome (p k : QString) : (stripGroup p k).isSome = true ↔ p <+: k := by
  rw [Option.isSome_iff_exists]
  constructor
  · rintro ⟨r, hr⟩; exact ⟨r, ((stripGroup_eq_some p k r).mp hr).symm⟩
  · rintro ⟨r, hr⟩; exact ⟨r, (stripGroup_eq_some p k r).mpr hr.symm⟩

theorem normalizedKeyAux_segment (cs rest : QString) (h : slash ∉ cs) :
    normalizedKeyAux true false (cs ++ rest) = cs ++ normalizedKeyAux true false rest := by
  induction cs with
  | nil => rfl
  | cons c cs ih =>
    have hc : c ≠ slash := fun e => h (by rw [e]; exact List.mem_cons_self _ _)
    have hcs : slash ∉ cs := fun e => h (List.mem_cons_of_mem _ e)
    have h1 := ih hcs
    simp only [List.cons_append, normalizedKeyAux, if_neg hc, Bool.false_eq_true, if_false]
    exact congrArg (List.cons c) h1

theorem normalizedKeyAux_start (started : Bool) (c : QChar) (cs : QString) (hc : c ≠ slash) :
    normalizedKeyAux started false (c :: cs) = c :: normalizedKeyAux true false cs := by
  simp only [normalizedKeyAux, if_neg hc, Bool.false_eq_true, if_false]

theorem normalizedKeyAux_pending (c : QChar) (cs : QString) (hc : c ≠ slash) :
    normalizedKeyAux true true (c :: cs) = slash :: normalizedKeyAux true false (c :: cs) := by
  simp only [normalizedKeyAux, if_neg hc, if_true, Bool.false_eq_true, if_false]

/-- A key made of non-empty segments without slashes, joined by slashes, is
its own normalised form. -/
theorem normalizedKeyAux_joinWith :
    ∀ (segs : List QString) (started : Bool), segs ≠ [] →
      (∀ s ∈ segs, s ≠ [] ∧ slash ∉ s) →
      normalizedKeyAux started false (joinWith slash segs) = joinWith slash segs
  | [], _, h, _ => absurd rfl h
  | [s], started, _, hs => by
    obtain ⟨hne, hsl⟩ := hs s (List.mem_singleton_self s)
    cases s with
    | nil => exact absurd rfl hne
    | cons c cs =>
      have hc : c ≠ slash := fun e => hsl (by rw [e]; exact List.mem_cons_self _ _)
      have hcs : slash ∉ cs := fun e => hsl (List.mem_cons_of_mem _ e)
      have h1 : normalizedKeyAux true false cs = cs := by
        have h2 := normalizedKeyAux_segment cs [] hcs
        simpa [normalizedKeyAux] using h2
      simp only [joinWith]
      rw [normalizedKeyAux_start started c cs hc, h1]
  | s :: t :: rest, started, _, hs => by
    obtain ⟨hne, hsl⟩ := hs s (List.mem_cons_self _ _)
    have hrest : ∀ u ∈ t :: rest, u ≠ [] ∧ slash ∉ u :=
      fun u hu => hs u (List.mem_cons_of_mem _ hu)
    have ih := normalizedKeyAux_joinWith (t :: rest) true (List.cons_ne_nil _ _) hrest
    cases s with
    | nil => exact absurd rfl hne
    | cons c cs =>
      have hc : c ≠ slash := fun e => hsl (by rw [e]; exact List.mem_cons_self _ _)
      have hcs : slash ∉ cs := fun e => hsl (List.mem_cons_of_mem _ e)
      obtain ⟨htne, htsl⟩ := hs t (List.mem_cons_of_mem _ (List.mem_cons_self _ _))
      have hj : ∃ d ds, joinWith slash (t :: rest) = d :: ds ∧ d ≠ slash := by
        cases t with
        | nil => exact absurd rfl htne
        | cons d ds =>
          have hd : d ≠ slash := fun e => htsl (by rw [e]; exact List.mem_cons_self _ _)
          cases rest with
          | nil => exact ⟨d, ds, rfl, hd⟩
          | cons u us => exact ⟨d, _, rfl, hd⟩
      obtain ⟨d, ds, hjd, hd⟩ := hj
      simp only [joinWith, List.cons_append]
      rw [normalizedKeyAux_start started c _ hc, normalizedKeyAux_segment cs _ hcs]
      have h2 : normalizedKeyAux true false (slash :: joinWith slash (t :: rest))
          = slash :: joinWith slash (t :: rest) := by
        have h3 : normalizedKeyAux true false (slash :: joinWith slash (t :: rest))
            = normalizedKeyAux true true (joinWith slash (t :: rest)) := by
          simp only [normalizedKeyAux, if_true]
        rw [h3, hjd, normalizedKeyAux_pending d ds hd, ← hjd, ih]
      rw [h2]

theorem normalizedKey_of_wellFormed_slash (k : QString) (h : WellFormedKey slash k) :
    normalizedKey k = k := by
  obtain ⟨segs, hne, hsegs, hk⟩ := h
  rw [hk]
  exact normalizedKeyAux_joinWith segs false hne (fun s hs => ⟨(hsegs s hs).1, (hsegs s hs).2.2⟩)

theorem internal_joinWith :
    ∀ (segs : List QString), (∀ s ∈ segs, dot ∉ s) →
      internalRepresentation (joinWith dot segs) = joinWith slash segs
  | [], _ => rfl
  | [s], hs => by
    have h := hs s (List.mem_singleton_self s)
    simp only [joinWith]
    have h1 : ∀ (l : QString), dot ∉ l → internalRepresentation l = l := by
      intro l hl
      induction l with
      | nil => rfl
      | cons c cs ih =>
        have hc : c ≠ QLatin1Char '.' := fun e => hl (by rw [e]; exact List.mem_cons_self _ _)
        have hcs : dot ∉ cs := fun e => hl (List.mem_cons_of_mem _ e)
        have ih1 := ih hcs
        simp only [internalRepresentation, QString.replace, List.map_cons, if_neg hc] at ih1 ⊢
        rw [ih1]
    exact h1 s h
  | s :: t :: rest, hs => by
    have h1 : ∀ (l : QString), dot ∉ l → internalRepresentation l = l := by
      intro l hl
      induction l with
      | nil => rfl
      | cons c cs ih =>
        have hc : c ≠ QLatin1Char '.' := fun e => hl (by rw [e]; exact List.mem_cons_self _ _)
        have hcs : dot ∉ cs := fun e => hl (List.mem_cons_of_mem _ e)
        have ih1 := ih hcs
        simp only [internalRepresentation, QString.replace, List.map_cons, if_neg hc] at ih1 ⊢
        rw [ih1]
    have ih := internal_joinWith (t :: rest) (fun u hu => hs u (List.mem_cons_of_mem _ hu))
    have hs1 := h1 s (hs s (List.mem_cons_self _ _))
    simp only [joinWith]
    simp only [internalRepresentation, QString.replace, List.map_append, List.map_cons] at ih hs1 ⊢
    rw [ih, hs1]
    rfl

/-- The internal form of a well-formed dotted key is a well-formed slash
key. -/
theorem internal_wellFormed (k : QString) (h : WellFormedKey dot k) :
    WellFormedKey slash (internalRepresentation k) := by
  obtain ⟨segs, hne, hsegs, hk⟩ := h
  exact ⟨segs, hne, hsegs, by rw [hk]; exact internal_joinWith segs (fun s hs => (hsegs s hs).2.1)⟩

theorem internal_ne_nil_of_wellFormed (k : QString) (h : WellFormedKey dot k) :
    internalRepresentation k ≠ [] := by
  obtain ⟨segs, hsne, hsegs, hk⟩ := h
  have hkne : k ≠ [] := by
    rw [hk]
    cases segs with
    | nil => exact absurd rfl hsne
    | cons a rest =>
      have ha := (hsegs a (List.mem_cons_self _ _)).1
      cases a with
      | nil => exact absurd rfl ha
      | cons c cs => cases rest <;> simp [joinWith]
  cases k with
  | nil => exact absurd rfl hkne
  | cons c cs => simp [internalRepresentation, QString.replace]

theorem normalizedKey_internal_of_wellFormed (k : QString) (h : WellFormedKey dot k) :
    normalizedKey (internalRepresentation k) = internalRepresentation k :=
  normalizedKey_of_wellFormed_slash _ (internal_wellFormed k h)

theorem groupPath_of_noGroup (s : Settings) : s.m_settings.groupPath = [] := by
  unfold QSettings.groupPath
  rw [s.noGroup]
  rfl

theorem checkStatus_state (flush : Status) (s : Settings) :
    (Settings.checkStatus flush s).2.m_settings = s.m_settings.sync flush := by
  unfold Settings.checkStatus
  dsimp only
  split <;> rfl

theorem setValue_entries (flush : Status) (s : Settings) (k : QString) (v : QVariant) :
    (Settings.setValue flush s k v).2.m_settings.entries =
      (normalizedKey (internalRepresentation k), v) ::
        s.m_settings.entries.filter
          (fun e => e.1 ≠ normalizedKey (internalRepresentation k)) := by
  unfold Settings.setValue
  dsimp only
  rw [checkStatus_state]
  simp only [QSettings.sync, QSettings.setValue, QSettings.actualKey, groupPath_of_noGroup,
    List.nil_append]

theorem remove_entries (flush : Status) (s : Settings) (k : QString) :
    (Settings.remove flush s k).2.m_settings.entries =
      if normalizedKey (internalRepresentation k) = [] then []
      else s.m_settings.entries.filter (fun e =>
        ¬ (e.1 = normalizedKey (internalRepresentation k) ∨
          (stripGroup (normalizedKey (internalRepresentation k) ++ [slash]) e.1).isSome)) := by
  unfold Settings.remove
  dsimp only
  rw [checkStatus_state]
  simp only [QSettings.sync, QSettings.remove, QSettings.group, groupPath_of_noGroup,
    List.nil_append, List.dropLast_nil]
  by_cases h : normalizedKey (internalRepresentation k) = []
  · simp [h]
  · simp [h]

theorem value_eq (s : Settings) (k : QString) (d : QVariant) :
    s.value k d =
      (entryValue (normalizedKey (internalRepresentation k)) s.m_settings.entries).getD d := by
  unfold Settings.value QSettings.value QSettings.actualKey
  rw [groupPath_of_noGroup, s.fallbacksOff, List.nil_append]
  cases entryValue (normalizedKey (internalRepresentation k)) s.m_settings.entries <;> rfl

theorem value_after_setValue (flush : Status) (s : Settings) (k : QString) (v d : QVariant) :
    (Settings.setValue flush s k v).2.value k d = v := by
  rw [value_eq, setValue_entries]
  simp [entryValue]

/-! ## Claims on reading, writing and removing -/

/-- C2: for every store state, key `k`, value `v` and default `d`, if
`setValue(k, v)` returns normally then `value(k, d)` on the resulting state is
`v`. -/
theorem setValue_then_value (flush : Status) (s : Settings) (k : QString) (v d : QVariant)
    (_h : (Settings.setValue flush s k v).1 = none) :
    (Settings.setValue flush s k v).2.value k d = v :=
  value_after_setValue flush s k v d

/-- C2, witness: `setValue("profiles.qt.baseProfile", "x")` on an empty store,
then `value("profiles.qt.baseProfile", "")`. -/
theorem setValue_then_value_witness :
    (Settings.setValue Status.NoError (Settings.ofEntries [] (QLatin1String "qbs.conf")
        Status.NoError) (QLatin1String "profiles.qt.baseProfile")
        (QVariant.string (QLatin1String "x"))).1 = none ∧
    (Settings.setValue Status.NoError (Settings.ofEntries [] (QLatin1String "qbs.conf")
        Status.NoError) (QLatin1String "profiles.qt.baseProfile")
        (QVariant.string (QLatin1String "x"))).2.value
        (QLatin1String "profiles.qt.baseProfile") (QVariant.string (QLatin1String ""))
      = QVariant.string (QLatin1String "x") :=
  ⟨by decide, setValue_then_value _ _ _ _ _ (by decide)⟩

/-- C3, counterexample: the store holds `a/b` only, so the key `a` is absent
(`value("a", d)` is `d`); `remove("a")` returns normally and the store is
empty afterwards: the entry `a/b` is gone. -/
theorem remove_absent_key_removes_nested :
    (Settings.ofEntries [(QLatin1String "a/b", QVariant.int 1)] (QLatin1String "qbs.conf")
        Status.NoError).value (QLatin1String "a") QVariant.invalid = QVariant.invalid ∧
    (Settings.remove Status.NoError
      (Settings.ofEntries [(QLatin1String "a/b", QVariant.int 1)] (QLatin1String "qbs.conf")
        Status.NoError) (QLatin1String "a")).1 = none ∧
    (Settings.remove Status.NoError
      (Settings.ofEntries [(QLatin1String "a/b", QVariant.int 1)] (QLatin1String "qbs.conf")
        Status.NoError) (QLatin1String "a")).2.m_settings.entries = [] ∧
    (Settings.ofEntries [(QLatin1String "a/b", QVariant.int 1)] (QLatin1String "qbs.conf")
        Status.NoError).m_settings.entries ≠ [] := by
  decide

/-- C3, amended: for every store state, key `k` and default `d`, if
`remove(k)` returns normally then `value(k, d)` on the resulting state is `d`,
whether or not `k` was present; and the stored keys and values are unchanged
when the key the backend reads, `internal(k)` without its empty segments, is
not empty and no stored key is that key or starts with it followed by `/`. For
a well-formed dotted key `k` the key the backend reads is `internal(k)`
itself. -/
theorem remove_then_value (flush : Status) (s : Settings) (k : QString) (d : QVariant)
    (_h : (Settings.remove flush s k).1 = none) :
    (Settings.remove flush s k).2.value k d = d ∧
    (normalizedKey (internalRepresentation k) ≠ [] →
      (∀ e ∈ s.m_settings.entries,
        e.1 ≠ normalizedKey (internalRepresentation k) ∧
        ¬ (normalizedKey (internalRepresentation k) ++ [slash]) <+: e.1) →
      (Settings.remove flush s k).2.m_settings.entries = s.m_settings.entries) ∧
    (WellFormedKey dot k →
      (∀ e ∈ s.m_settings.entries,
        e.1 ≠ internalRepresentation k ∧ ¬ (internalRepresentation k ++ [slash]) <+: e.1) →
      (Settings.remove flush s k).2.m_settings.entries = s.m_settings.entries) := by
  have hgen : normalizedKey (internalRepresentation k) ≠ [] →
      (∀ e ∈ s.m_settings.entries,
        e.1 ≠ normalizedKey (internalRepresentation k) ∧
        ¬ (normalizedKey (internalRepresentation k) ++ [slash]) <+: e.1) →
      (Settings.remove flush s k).2.m_settings.entries = s.m_settings.entries := by
    intro hik habs
    rw [remove_entries, if_neg hik]
    apply List.filter_eq_self.mpr
    intro e he
    have h1 := habs e he
    have h2 : ¬ (stripGroup (normalizedKey (internalRepresentation k) ++ [slash]) e.1).isSome
        = true := by
      rw [stripGroup_isSome]; exact h1.2
    simp [h1.1, h2]
  refine ⟨?_, hgen, ?_⟩
  · rw [value_eq, remove_entries]
    split_ifs with h
    · rfl
    · rw [entryValue_filter_ne]
      · rfl
      · intro e _ he
        simp [he]
  · intro hw habs
    have hn := normalizedKey_internal_of_wellFormed k hw
    have hne : internalRepresentation k ≠ [] := internal_ne_nil_of_wellFormed k hw
    apply hgen
    · rw [hn]; exact hne
    · rw [hn]; exact habs

/-- C3, witness: `remove("a.b")` then `value("a.b", "default")` on a store
holding `a/b` and `c`; and `remove("x")`, a key with nothing at or below it,
on the same store. -/
theorem remove_then_value_witness :
    ((Settings.remove Status.NoError
        (Settings.ofEntries [(QLatin1String "a/b", QVariant.int 1),
          (QLatin1String "c", QVariant.bool true)] (QLatin1String "qbs.conf") Status.NoError)
        (QLatin1String "a.b")).1 = none ∧
      (Settings.remove Status.NoError
        (Settings.ofEntries [(QLatin1String "a/b", QVariant.int 1),
          (QLatin1String "c", QVariant.bool true)] (QLatin1String "qbs.conf") Status.NoError)
        (QLatin1String "a.b")).2.value (QLatin1String "a.b")
          (QVariant.string (QLatin1String "default"))
        = QVariant.string (QLatin1String "default")) ∧
    (Settings.remove Status.NoError
        (Settings.ofEntries [(QLatin1String "a/b", QVariant.int 1),
          (QLatin1String "c", QVariant.bool true)] (QLatin1String "qbs.conf") Status.NoError)
        (QLatin1String "x")).2.m_settings.entries
      = [(QLatin1String "a/b", QVariant.int 1), (QLatin1String "c", QVariant.bool true)] :=
  ⟨⟨by decide, (remove_then_value _ _ _ _ (by decide)).1⟩,
    (remove_then_value Status.NoError _ (QLatin1String "x") QVariant.invalid (by decide)).2.2
      ⟨[QLatin1String "x"], by decide, by decide, by decide⟩ (by decide)⟩

/-- The backend reads `a.` as the key `a` and `.` as the empty key: on a store
holding `a` and `a/b`, `remove("a.")` and `remove(".")` both empty the
store. -/
theorem remove_reads_normalised_key :
    (Settings.remove Status.NoError
      (Settings.ofEntries [(QLatin1String "a", QVariant.int 1),
        (QLatin1String "a/b", QVariant.int 2)] (QLatin1String "qbs.conf") Status.NoError)
      (QLatin1String "a.")).2.m_settings.entries = [] ∧
    (Settings.remove Status.NoError
      (Settings.ofEntries [(QLatin1String "a", QVariant.int 1),
        (QLatin1String "a/b", QVariant.int 2)] (QLatin1String "qbs.conf") Status.NoError)
      (QLatin1String ".")).2.m_settings.entries = [] := by
  decide

/-- C9: `defaultProfile()` is `value("profile", "")` converted to a string
(whatever default `Settings::value` declares, as long as that default converts
to the empty string, as the invalid variant and the empty string do); on a
store with no entry under `profile` it is the empty string; and after
`setValue("profile", s)` returned normally, for a string `s`, it is `s`. -/
theorem defaultProfile_spec (defaultValue : QVariant) (hdv : defaultValue.toString = [])
    (s : Settings) :
    Settings.defaultProfile defaultValue s
      = (s.value (QLatin1String "profile") (QVariant.string (QLatin1String ""))).toString ∧
    (entryValue (QLatin1String "profile") s.m_settings.entries = none →
      Settings.defaultProfile defaultValue s = QLatin1String "") ∧
    (∀ (flush : Status) (str : QString),
      (Settings.setValue flush s (QLatin1String "profile") (QVariant.string str)).1 = none →
      Settings.defaultProfile defaultValue
        (Settings.setValue flush s (QLatin1String "profile") (QVariant.string str)).2 = str) := by
  have hint : normalizedKey (internalRepresentation (QLatin1String "profile"))
      = QLatin1String "profile" := by
    decide
  refine ⟨?_, ?_, ?_⟩
  · unfold Settings.defaultProfile
    rw [value_eq, value_eq]
    generalize entryValue (normalizedKey (internalRepresentation (QLatin1String "profile")))
      s.m_settings.entries = o
    cases o with
    | none => exact hdv
    | some v => rfl
  · intro hnone
    unfold Settings.defaultProfile
    rw [value_eq, hint, hnone]
    exact hdv
  · intro flush str _
    unfold Settings.defaultProfile
    rw [value_after_setValue flush s]
    rfl

/-- C9, witness: the default is the invalid variant; the store is empty, then
`setValue("profile", "myProfile")`. -/
theorem defaultProfile_spec_witness :
    Settings.defaultProfile QVariant.invalid
      (Settings.ofEntries [] (QLatin1String "qbs.conf") Status.NoError) = QLatin1String "" ∧
    (Settings.setValue Status.NoError (Settings.ofEntries [] (QLatin1String "qbs.conf")
      Status.NoError) (QLatin1String "profile")
      (QVariant.string (QLatin1String "myProfile"))).1 = none ∧
    Settings.defaultProfile QVariant.invalid
      (Settings.setValue Status.NoError (Settings.ofEntries [] (QLatin1String "qbs.conf")
        Status.NoError) (QLatin1String "profile")
        (QVariant.string (QLatin1String "myProfile"))).2 = QLatin1String "myProfile" :=
  ⟨(defaultProfile_spec QVariant.invalid rfl _).2.1 (by decide), by decide,
    (defaultProfile_spec QVariant.invalid rfl _).2.2 Status.NoError _ (by decide)⟩

/-! ## Claims on the status check -/

theorem checkStatus_thrown (flush : Status) (s : Settings) :
    (Settings.checkStatus flush s).1 =
      thrownFor (Settings.checkStatus flush s).2.m_settings.status
        (Settings.checkStatus flush s).2.m_settings.fileName := by
  rw [checkStatus_state]
  unfold Settings.checkStatus
  dsimp only
  cases h : (s.m_settings.sync flush).status <;> rfl

/-- C5, counterexample: an access error and a format error after the flush
both make `setValue` throw an object of the one class `Error`; the two
failures differ in their message only, there is no separate class for either
kind. -/
theorem access_and_format_failure_same_class :
    (Settings.setValue Status.AccessError
      (Settings.ofEntries [] (QLatin1String "/home/u/qbs.conf") Status.NoError)
      (QLatin1String "a") (QVariant.int 1)).1
      = some (Error.mk (QLatin1String "/home/u/qbs.conf is not accessible.")) ∧
    (Settings.setValue Status.FormatError
      (Settings.ofEntries [] (QLatin1String "/home/u/qbs.conf") Status.NoError)
      (QLatin1String "a") (QVariant.int 1)).1
      = some (Error.mk (QLatin1String "Format error in /home/u/qbs.conf.")) ∧
    (Settings.setValue Status.AccessError
      (Settings.ofEntries [] (QLatin1String "/home/u/qbs.conf") Status.NoError)
      (QLatin1String "a") (QVariant.int 1)).1.map Error.className
      = (Settings.setValue Status.FormatError
          (Settings.ofEntries [] (QLatin1String "/home/u/qbs.conf") Status.NoError)
          (QLatin1String "a") (QVariant.int 1)).1.map Error.className := by
  decide

/-- C5, amended: for every mutating call (`setValue` or `remove`) the outcome
is decided by the backend status read after the forced flush: no-error makes
the call return normally; access-error makes it throw an `Error` with the
message `<path> is not accessible.`; format-error makes it throw an `Error`, an
object of the same class, with the message `Format error in <path>.`; the two
messages differ, and each contains the path of the backing file. -/
theorem mutating_call_outcome (flush : Status) (s : Settings) (k : QString) (v : QVariant) :
    (Settings.setValue flush s k v).1 =
      thrownFor (Settings.setValue flush s k v).2.m_settings.status
        (Settings.setValue flush s k v).2.m_settings.fileName ∧
    (Settings.remove flush s k).1 =
      thrownFor (Settings.remove flush s k).2.m_settings.status
        (Settings.remove flush s k).2.m_settings.fileName ∧
    (∀ (st : Status) (f : QString) (e : Error), thrownFor st f = some e →
      f <:+: e.message ∧ e.className = "Error") ∧
    (∀ f : QString, thrownFor Status.AccessError f ≠ thrownFor Status.FormatError f) := by
  refine ⟨checkStatus_thrown flush _, checkStatus_thrown flush _, ?_, ?_⟩
  · intro st f e he
    cases st with
    | NoError => exact Option.noConfusion he
    | AccessError =>
      simp only [thrownFor, Option.some.injEq] at he
      rw [← he]
      exact ⟨⟨[], QLatin1String " is not accessible.", by simp⟩, rfl⟩
    | FormatError =>
      simp only [thrownFor, Option.some.injEq] at he
      rw [← he]
      exact ⟨⟨QLatin1String "Format error in ", QLatin1String ".", by simp⟩, rfl⟩
  · intro f h
    simp only [thrownFor, Option.some.injEq, Error.mk.injEq] at h
    have hl := congrArg List.length h
    simp [QLatin1String] at hl

/-! ## Claims on construction -/

theorem stripGroup_nil (k : QString) : stripGroup [] k = some k := by
  cases k <;> rfl

theorem allKeys_of_plain (q : QSettings) (hf : q.fallbacksEnabled = false)
    (hg : q.groupStack = []) : q.allKeys = q.entries.map (fun e => e.1) := by
  unfold QSettings.allKeys QSettings.groupPath
  rw [hf, hg]
  simp only [List.map_nil, List.flatten_nil, Bool.false_eq_true, if_false]
  induction q.entries with
  | nil => rfl
  | cons e rest ih =>
    simp only [stripGroup_nil, List.filterMap_cons, List.map_cons] at ih ⊢
    rw [ih]

theorem mem_fixupKeys (mv : MoveAssign) (keys : QStringList) (x : QString) :
    x ∈ fixupKeys mv keys ↔ ∃ k ∈ keys, x = externalRepresentation k := by
  rw [fixupKeys_eq, List.mem_map]
  constructor
  · rintro ⟨k, hk, hx⟩; exact ⟨k, (mem_sortedKeys keys k).mp hk, hx.symm⟩
  · rintro ⟨k, hk, hx⟩; exact ⟨k, (mem_sortedKeys keys k).mpr hk, hx.symm⟩

theorem settings_allKeys_backend (s : Settings) :
    s.m_settings.allKeys = s.m_settings.entries.map (fun e => e.1) :=
  allKeys_of_plain _ s.fallbacksOff s.noGroup

theorem allKeysWithPrefix_keys (mv : MoveAssign) (s : Settings) (g : QString) :
    (Settings.allKeysWithPrefix mv s g).1 =
      fixupKeys mv (s.m_settings.entries.filterMap (fun e =>
        stripGroup (if normalizedKey (internalRepresentation g) = [] then []
          else normalizedKey (internalRepresentation g) ++ [slash]) e.1)) := by
  unfold Settings.allKeysWithPrefix
  dsimp only
  congr 1
  unfold QSettings.allKeys QSettings.groupPath QSettings.beginGroup
  dsimp only
  rw [s.fallbacksOff, s.noGroup]
  simp

theorem external_append (a b : QString) :
    externalRepresentation (a ++ b) = externalRepresentation a ++ externalRepresentation b := by
  simp [externalRepresentation, QString.replace]

/-- C8, counterexample: the store holds `profiles/qt`. `allKeysWithPrefix`
for the group `profiles` returns the key `qt`, relative to the group, although
`allKeys()` returns `profiles.qt`: the returned key is not an element of
`allKeys()` and does not begin with `profiles.`. -/
theorem allKeysWithPrefix_strips_group :
    (Settings.allKeysWithPrefix MoveAssign.copy
      (Settings.ofEntries [(QLatin1String "profiles/qt", QVariant.string (QLatin1String "x"))]
        (QLatin1String "qbs.conf") Status.NoError) (QLatin1String "profiles")).1
      = [QLatin1String "qt"] ∧
    Settings.allKeys MoveAssign.copy
      (Settings.ofEntries [(QLatin1String "profiles/qt", QVariant.string (QLatin1String "x"))]
        (QLatin1String "qbs.conf") Status.NoError) = [QLatin1String "profiles.qt"] ∧
    QLatin1String "qt" ∉ Settings.allKeys MoveAssign.copy
      (Settings.ofEntries [(QLatin1String "profiles/qt", QVariant.string (QLatin1String "x"))]
        (QLatin1String "qbs.conf") Status.NoError) ∧
    ¬ (QLatin1String "profiles." <+: QLatin1String "qt") := by
  decide

/-- C8, amended: for every store state and every group `g`,
`allKeysWithPrefix(g)` returns the external keys of the entries nested under
the group relative to the group, that is stripped of the prefix. The group the
backend enters is `internal(g)` without its empty segments. When that is not
empty, a key is returned exactly when it is the external form of `rest` for
some backend key made of the group, `/` and `rest`, and every returned key,
with the external form of the group and a `.` put in front, is an element of
`allKeys()`. For a well-formed dotted `g` the group is `internal(g)` itself,
and every returned key with `g` and a `.` put in front is an element of
`allKeys()`. When the group is empty the call returns `allKeys()`. The call
leaves the store as it was. -/
theorem allKeysWithPrefix_relative (mv : MoveAssign) (s : Settings) (g : QString) :
    (normalizedKey (internalRepresentation g) ≠ [] →
      (∀ x, x ∈ (Settings.allKeysWithPrefix mv s g).1 ↔
        ∃ rest, normalizedKey (internalRepresentation g) ++ slash :: rest ∈ s.m_settings.allKeys ∧
          x = externalRepresentation rest) ∧
      (∀ x ∈ (Settings.allKeysWithPrefix mv s g).1,
        externalRepresentation (normalizedKey (internalRepresentation g)) ++ dot :: x
          ∈ Settings.allKeys mv s)) ∧
    (WellFormedKey dot g →
      (∀ x, x ∈ (Settings.allKeysWithPrefix mv s g).1 ↔
        ∃ rest, internalRepresentation g ++ slash :: rest ∈ s.m_settings.allKeys ∧
          x = externalRepresentation rest) ∧
      (∀ x ∈ (Settings.allKeysWithPrefix mv s g).1, g ++ dot :: x ∈ Settings.allKeys mv s)) ∧
    (normalizedKey (internalRepresentation g) = [] →
      (Settings.allKeysWithPrefix mv s g).1 = Settings.allKeys mv s) ∧
    (Settings.allKeysWithPrefix mv s g).2.m_settings = s.m_settings := by
  have hstate : (Settings.allKeysWithPrefix mv s g).2.m_settings = s.m_settings := by
    show (s.m_settings.beginGroup (internalRepresentation g)).endGroup = s.m_settings
    have h1 : (s.m_settings.groupStack ++ [normalizedKey (internalRepresentation g)]).dropLast
        = s.m_settings.groupStack := by simp
    unfold QSettings.endGroup QSettings.beginGroup
    dsimp only
    rw [h1]
  have hmem : normalizedKey (internalRepresentation g) ≠ [] →
      ∀ x, x ∈ (Settings.allKeysWithPrefix mv s g).1 ↔
      ∃ rest, normalizedKey (internalRepresentation g) ++ slash :: rest ∈ s.m_settings.allKeys ∧
        x = externalRepresentation rest := by
    intro hg x
    rw [allKeysWithPrefix_keys, mem_fixupKeys, if_neg hg, settings_allKeys_backend]
    constructor
    · rintro ⟨rest, hrest, hx⟩
      obtain ⟨e, he, hs⟩ := List.mem_filterMap.mp hrest
      refine ⟨rest, ?_, hx⟩
      have hk := (stripGroup_eq_some _ _ _).mp hs
      rw [List.append_assoc, List.singleton_append] at hk
      rw [← hk]
      exact List.mem_map_of_mem _ he
    · rintro ⟨rest, hrest, hx⟩
      obtain ⟨e, he, hk⟩ := List.mem_map.mp hrest
      refine ⟨rest, List.mem_filterMap.mpr ⟨e, he, ?_⟩, hx⟩
      rw [stripGroup_eq_some, hk, List.append_assoc, List.singleton_append]
  have hfront : normalizedKey (internalRepresentation g) ≠ [] →
      ∀ x ∈ (Settings.allKeysWithPrefix mv s g).1,
        externalRepresentation (normalizedKey (internalRepresentation g)) ++ dot :: x
          ∈ Settings.allKeys mv s := by
    intro hg x hx
    obtain ⟨rest, hrest, hxr⟩ := (hmem hg x).mp hx
    unfold Settings.allKeys
    dsimp only
    rw [mem_fixupKeys]
    refine ⟨_, hrest, ?_⟩
    rw [external_append, hxr]
    rfl
  refine ⟨fun hg => ⟨hmem hg, hfront hg⟩, ?_, ?_, hstate⟩
  · intro hw
    have hn := normalizedKey_internal_of_wellFormed g hw
    have hne : normalizedKey (internalRepresentation g) ≠ [] := by
      rw [hn]; exact internal_ne_nil_of_wellFormed g hw
    have hext : externalRepresentation (internalRepresentation g) = g :=
      external_internal_of_no_slash g (no_slash_of_wellFormed_dotted g hw)
    have h1 := hmem hne
    have h2 := hfront hne
    rw [hn] at h1 h2
    rw [hext] at h2
    exact ⟨h1, h2⟩
  · intro hg
    rw [allKeysWithPrefix_keys, if_pos hg]
    unfold Settings.allKeys
    dsimp only
    rw [settings_allKeys_backend]
    congr 1
    induction s.m_settings.entries with
    | nil => rfl
    | cons e rest ih =>
      simp only [stripGroup_nil, List.filterMap_cons, List.map_cons] at ih ⊢
      rw [ih]

/-- C8, witness: a store with `profiles/qt/baseProfile`, `profiles/gcc` and
`profile`, and the group `profiles`. -/
theorem allKeysWithPrefix_relative_witness :
    (Settings.allKeysWithPrefix MoveAssign.copy
      (Settings.ofEntries [(QLatin1String "profiles/qt/baseProfile", QVariant.int 1),
        (QLatin1String "profiles/gcc", QVariant.int 2), (QLatin1String "profile", QVariant.int 3)]
        (QLatin1String "qbs.conf") Status.NoError) (QLatin1String "profiles")).1
      = [QLatin1String "gcc", QLatin1String "qt.baseProfile"] ∧
    ∀ x ∈ (Settings.allKeysWithPrefix MoveAssign.copy
      (Settings.ofEntries [(QLatin1String "profiles/qt/baseProfile", QVariant.int 1),
        (QLatin1String "profiles/gcc", QVariant.int 2), (QLatin1String "profile", QVariant.int 3)]
        (QLatin1String "qbs.conf") Status.NoError) (QLatin1String "profiles")).1,
      QLatin1String "profiles" ++ dot :: x ∈
        Settings.allKeys MoveAssign.copy
          (Settings.ofEntries [(QLatin1String "profiles/qt/baseProfile", QVariant.int 1),
            (QLatin1String "profiles/gcc", QVariant.int 2),
            (QLatin1String "profile", QVariant.int 3)]
            (QLatin1String "qbs.conf") Status.NoError) :=
  ⟨by decide, ((allKeysWithPrefix_relative MoveAssign.copy _ (QLatin1String "profiles")).2.1
    ⟨[QLatin1String "profiles"], by decide, by decide, by decide⟩).2⟩

/-- The backend reads the group `a.` as `a` and the group `.` as no group: on a
store holding `a` and `a/b`, `allKeysWithPrefix("a.")` returns `b` and
`allKeysWithPrefix(".")` returns all keys. -/
theorem allKeysWithPrefix_reads_normalised_group :
    (Settings.allKeysWithPrefix MoveAssign.copy
      (Settings.ofEntries [(QLatin1String "a", QVariant.int 1),
        (QLatin1String "a/b", QVariant.int 2)] (QLatin1String "qbs.conf") Status.NoError)
      (QLatin1String "a.")).1 = [QLatin1String "b"] ∧
    (Settings.allKeysWithPrefix MoveAssign.copy
      (Settings.ofEntries [(QLatin1String "a", QVariant.int 1),
        (QLatin1String "a/b", QVariant.int 2)] (QLatin1String "qbs.conf") Status.NoError)
      (QLatin1String ".")).1 = [QLatin1String "a", QLatin1String "a.b"] := by
  decide

theorem codePoints_of_noSurrogate (k : QString) (h : NoSurrogate k) : codePoints k = k := by
  unfold codePoints
  induction k with
  | nil => rfl
  | cons c cs ih =>
    have hc := h c (List.mem_cons_self _ _)
    have hcs : NoSurrogate cs := fun d hd => h d (List.mem_cons_of_mem _ hd)
    have hhigh : isHighSurrogate c = false := by
      unfold isHighSurrogate
      unfold QChar at *
      rw [decide_eq_false_iff_not]
      omega
    simp only [codePointsAux, hhigh, Bool.false_eq_true, if_false, ih hcs]

theorem external_noSurrogate (k : QString) (h : NoSurrogate k) :
    NoSurrogate (externalRepresentation k) := by
  intro c hc
  simp only [externalRepresentation, QString.replace, List.mem_map] at hc
  obtain ⟨d, hd, hdc⟩ := hc
  have h1 := h d hd
  rw [dot_val, slash_val] at hdc
  unfold QChar at *
  split_ifs at hdc <;> omega

theorem external_cons (c : QChar) (cs : QString) :
    externalRepresentation (c :: cs)
      = (if c = (47 : Nat) then (46 : Nat) else c) :: externalRepresentation cs := by
  simp only [externalRepresentation, QString.replace, List.map_cons, dot_val, slash_val]

/-- Conversion to external form and reading by code points commute: `/` and
`.` are no surrogates, and a surrogate pair stands for a character that is
neither. -/
theorem codePointsAux_external (cs : QString) :
    ∀ (p : Option QChar), (∀ h, p = some h → isHighSurrogate h = true) →
      codePointsAux p (externalRepresentation cs)
        = externalRepresentation (codePointsAux p cs) := by
  induction cs with
  | nil =>
    intro p hp
    cases p with
    | none => rfl
    | some h =>
      have hh := hp h rfl
      simp only [isHighSurrogate, decide_eq_true_eq] at hh
      have h47 : ¬ h = (47 : Nat) := by unfold QChar at *; omega
      show [h] = externalRepresentation [h]
      rw [external_cons, if_neg h47]
      rfl
  | cons c cs ih =>
    intro p hp
    rw [external_cons]
    by_cases hc : c = (47 : Nat)
    · rw [if_pos hc, hc]
      have hl46 : isLowSurrogate (46 : Nat) = false := by decide
      have hh46 : isHighSurrogate (46 : Nat) = false := by decide
      have hl47 : isLowSurrogate (47 : Nat) = false := by decide
      have hh47 : isHighSurrogate (47 : Nat) = false := by decide
      cases p with
      | none =>
        simp only [codePointsAux, hh46, hh47, Bool.false_eq_true, if_false]
        rw [ih none (fun h hh => Option.noConfusion hh), external_cons, if_pos rfl]
      | some h =>
        have hh := hp h rfl
        simp only [isHighSurrogate, decide_eq_true_eq] at hh
        have h47 : ¬ h = (47 : Nat) := by unfold QChar at *; omega
        simp only [codePointsAux, hl46, hl47, hh46, hh47, Bool.false_eq_true, if_false]
        rw [ih none (fun h hh => Option.noConfusion hh), external_cons, if_neg h47,
          external_cons, if_pos rfl]
    · rw [if_neg hc]
      cases p with
      | none =>
        by_cases hhigh : isHighSurrogate c = true
        · simp only [codePointsAux, hhigh, if_true]
          exact ih (some c) (fun h hh => by rw [← Option.some.inj hh]; exact hhigh)
        · simp only [codePointsAux, hhigh, Bool.false_eq_true, if_false]
          rw [ih none (fun h hh => Option.noConfusion hh), external_cons, if_neg hc]
      | some h =>
        have hh := hp h rfl
        simp only [isHighSurrogate, decide_eq_true_eq] at hh
        have h47 : ¬ h = (47 : Nat) := by unfold QChar at *; omega
        by_cases hlow : isLowSurrogate c = true
        · have hu : ¬ surrogateToUcs4 h c = (47 : Nat) := by
            unfold surrogateToUcs4; unfold QChar at *; omega
          simp only [codePointsAux, hlow, if_true]
          rw [ih none (fun h hh => Option.noConfusion hh), external_cons, if_neg hu]
        · by_cases hhigh : isHighSurrogate c = true
          · simp only [codePointsAux, hlow, hhigh, Bool.false_eq_true, if_false, if_true]
            rw [ih (some c) (fun h1 hh1 => by rw [← Option.some.inj hh1]; exact hhigh),
              external_cons, if_neg h47]
          · simp only [codePointsAux, hlow, hhigh, Bool.false_eq_true, if_false]
            rw [ih none (fun h hh => Option.noConfusion hh), external_cons, if_neg h47,
              external_cons, if_neg hc]

theorem codePoints_external (k : QString) :
    codePoints (externalRepresentation k) = externalRepresentation (codePoints k) :=
  codePointsAux_external k none (fun _ hh => Option.noConfusion hh)

theorem codePointsAux_no_dot (cs : QString) :
    ∀ (p : Option QChar), (∀ h, p = some h → h ≠ (46 : Nat)) → dot ∉ cs →
      dot ∉ codePointsAux p cs := by
  induction cs with
  | nil =>
    intro p hp _
    cases p with
    | none => simp [codePointsAux]
    | some h =>
      have hh := hp h rfl
      simp only [codePointsAux, List.mem_singleton, dot, dot_val]
      exact fun e => hh e.symm
  | cons c cs ih =>
    intro p hp hd
    have hc : c ≠ (46 : Nat) := fun e => hd (by rw [e]; exact List.mem_cons_self _ _)
    have hcs : dot ∉ cs := fun e => hd (List.mem_cons_of_mem _ e)
    have hnone := ih none (fun h hh => Option.noConfusion hh) hcs
    have hsome := ih (some c) (fun h hh => by rw [← Option.some.inj hh]; exact hc) hcs
    have hu : ∀ h : QChar, surrogateToUcs4 h c ≠ (46 : Nat) := by
      intro h; unfold surrogateToUcs4; unfold QChar at *; omega
    cases p with
    | none =>
      simp only [codePointsAux]
      split_ifs
      · exact hsome
      · intro hm
        rcases List.mem_cons.mp hm with h1 | h1
        · exact hc h1.symm
        · exact hnone h1
    | some h =>
      have hh := hp h rfl
      simp only [codePointsAux]
      split_ifs
      · intro hm
        rcases List.mem_cons.mp hm with h1 | h1
        · exact hu h h1.symm
        · exact hnone h1
      · intro hm
        rcases List.mem_cons.mp hm with h1 | h1
        · exact hh h1.symm
        · exact hsome h1
      · intro hm
        rcases List.mem_cons.mp hm with h1 | h1
        · exact hh h1.symm
        · rcases List.mem_cons.mp h1 with h2 | h2
          · exact hc h2.symm
          · exact hnone h2

theorem codePoints_no_dot (k : QString) (h : dot ∉ k) : dot ∉ codePoints k :=
  codePointsAux_no_dot k none (fun _ hh => Option.noConfusion hh) h

/-- C10, counterexample: a store holds the two well-formed keys U+FFFF (the
one value 65535) and U+1F600 (the surrogate pair 55357, 56832). `allKeys()`
returns the pair first, because its first value is the smaller one; in
code-point order U+FFFF is the smaller key, so the list is not ascending in
code-point order. -/
theorem allKeys_not_ascending_by_code_point :
    WellFormedKey slash [65535] ∧ WellFormedKey slash [55357, 56832] ∧
    Settings.allKeys MoveAssign.copy
      (Settings.ofEntries [([65535], QVariant.int 1), ([55357, 56832], QVariant.int 2)]
        (QLatin1String "qbs.conf") Status.NoError) = [[55357, 56832], [65535]] ∧
    codePoints [55357, 56832] = [128512] ∧
    codePointLess [65535] [55357, 56832] = true ∧
    ¬ List.Pairwise (fun a b => codePointLess a b = true)
      (Settings.allKeys MoveAssign.copy
        (Settings.ofEntries [([65535], QVariant.int 1), ([55357, 56832], QVariant.int 2)]
          (QLatin1String "qbs.conf") Status.NoError)) :=
  ⟨⟨[[65535]], by decide, by decide, by decide⟩,
    ⟨[[55357, 56832]], by decide, by decide, by decide⟩,
    by decide, by decide, by decide, by decide⟩

/-- C10, amended: key translation preserves relative order on keys without
`.`: for internal keys `a` and `b` that contain no `.`, `a < b` implies
`externalRepresentation a < externalRepresentation b`, in the order of the
16-bit character values that `QString` compares by and in code-point order
alike. When every backend key is a well-formed slash key, the list
`allKeys()` returns is strictly ascending in its external form in the order of
the 16-bit character values; it is strictly ascending in code-point order
when, in addition, no backend key contains a surrogate. -/
theorem external_order_preserved :
    (∀ a b : QString, dot ∉ a → dot ∉ b → QString.less a b = true →
      QString.less (externalRepresentation a) (externalRepresentation b) = true) ∧
    (∀ (mv : MoveAssign) (s : Settings),
      (∀ k ∈ s.m_settings.allKeys, WellFormedKey slash k) →
      List.Pairwise (fun a b => QString.less a b = true) (Settings.allKeys mv s)) ∧
    (∀ a b : QString, dot ∉ a → dot ∉ b → codePointLess a b = true →
      codePointLess (externalRepresentation a) (externalRepresentation b) = true) ∧
    (∀ (mv : MoveAssign) (s : Settings),
      (∀ k ∈ s.m_settings.allKeys, WellFormedKey slash k) →
      (∀ k ∈ s.m_settings.allKeys, NoSurrogate k) →
      List.Pairwise (fun a b => codePointLess a b = true) (Settings.allKeys mv s)) := by
  have hunits : ∀ (mv : MoveAssign) (s : Settings),
      (∀ k ∈ s.m_settings.allKeys, WellFormedKey slash k) →
      List.Pairwise (fun a b => QString.less a b = true) (Settings.allKeys mv s) := by
    intro mv s hwf
    unfold Settings.allKeys
    dsimp only
    rw [fixupKeys_eq, List.pairwise_map]
    apply List.Pairwise.imp_of_mem _ (sortedKeys_strict s.m_settings.allKeys)
    intro a b ha hb hab
    have hda : dot ∉ a := no_dot_of_wellFormed_slash a (hwf a ((mem_sortedKeys _ a).mp ha))
    have hdb : dot ∉ b := no_dot_of_wellFormed_slash b (hwf b ((mem_sortedKeys _ b).mp hb))
    exact external_less a b hda hdb hab
  refine ⟨external_less, hunits, ?_, ?_⟩
  · intro a b hda hdb hab
    unfold codePointLess at hab ⊢
    rw [codePoints_external, codePoints_external]
    exact external_less _ _ (codePoints_no_dot a hda) (codePoints_no_dot b hdb) hab
  · intro mv s hwf hns
    have hmemns : ∀ x ∈ Settings.allKeys mv s, NoSurrogate x := by
      intro x hx
      unfold Settings.allKeys at hx
      dsimp only at hx
      obtain ⟨k, hk, hxk⟩ := (mem_fixupKeys mv _ x).mp hx
      rw [hxk]
      exact external_noSurrogate k (hns k hk)
    apply List.Pairwise.imp_of_mem _ (hunits mv s hwf)
    intro a b ha hb hab
    unfold codePointLess
    rw [codePoints_of_noSurrogate a (hmemns a ha), codePoints_of_noSurrogate b (hmemns b hb)]
    exact hab

/-- C10, witness: the keys `a/c` and `a0`; the keys U+1F600 followed by `/`
and U+1F600 followed by `0`, in code-point order; and a store holding `b`,
`a/c` and `a` (reported in that order), none of them with a surrogate. -/
theorem external_order_preserved_witness :
    QString.less (externalRepresentation (QLatin1String "a/c"))
      (externalRepresentation (QLatin1String "a0")) = true ∧
    codePointLess (externalRepresentation [55357, 56832, 47])
      (externalRepresentation [55357, 56832, 48]) = true ∧
    List.Pairwise (fun a b => QString.less a b = true)
      (Settings.allKeys MoveAssign.copy
        (Settings.ofEntries [(QLatin1String "b", QVariant.int 1),
          (QLatin1String "a/c", QVariant.int 2), (QLatin1String "a", QVariant.int 3)]
          (QLatin1String "qbs.conf") Status.NoError)) ∧
    List.Pairwise (fun a b => codePointLess a b = true)
      (Settings.allKeys MoveAssign.copy
        (Settings.ofEntries [(QLatin1String "b", QVariant.int 1),
          (QLatin1String "a/c", QVariant.int 2), (QLatin1String "a", QVariant.int 3)]
          (QLatin1String "qbs.conf") Status.NoError)) :=
  have hwf : ∀ k ∈ (Settings.ofEntries [(QLatin1String "b", QVariant.int 1),
      (QLatin1String "a/c", QVariant.int 2), (QLatin1String "a", QVariant.int 3)]
      (QLatin1String "qbs.conf") Status.NoError).m_settings.allKeys, WellFormedKey slash k := by
    intro k hk
    have hk1 : k = QLatin1String "b" ∨ k = QLatin1String "a/c" ∨ k = QLatin1String "a" := by
      simpa [Settings.ofEntries, QSettings.allKeys, QSettings.groupPath, stripGroup_nil]
        using hk
    rcases hk1 with h | h | h
    · rw [h]; exact ⟨[QLatin1String "b"], by decide, by decide, by decide⟩
    · rw [h]; exact ⟨[QLatin1String "a", QLatin1String "c"], by decide, by decide, by decide⟩
    · rw [h]; exact ⟨[QLatin1String "a"], by decide, by decide, by decide⟩
  ⟨external_order_preserved.1 (QLatin1String "a/c") (QLatin1String "a0") (by decide) (by decide)
      (by decide),
    external_order_preserved.2.2.1 [55357, 56832, 47] [55357, 56832, 48] (by decide) (by decide)
      (by decide),
    external_order_preserved.2.1 MoveAssign.copy _ hwf,
    external_order_preserved.2.2.2 MoveAssign.copy _ hwf (by
      unfold NoSurrogate
      decide)⟩

end Qbs
